import Mathlib

/-!
# Verification of the run-length-encoded pixel tree module (`rle.py`)

Shallow embedding of the data model and the operations of `rle.py`:

* `Node` — the tree of `Pixel` leaves and `Repeat` nodes;
* `Node.gen` — flattening a tree into the literal pixel sequence;
* `Node.encode` — the binary encoder (`struct.pack` range failures are
  modelled as `none`);
* `DecodeBytes` — the binary decoder over a buffer of byte values
  (Python `assert` failures during decoding are modelled as `none`);
* `PyVal` and `TemplateEvaluate` — a model of the dynamically typed
  values that the template evaluator walks over, and the evaluator itself.

Machine integers are modelled as `Nat`; a byte buffer is a `List Nat`
whose elements a genuine Python byte string keeps below 256.
-/

namespace RLE

/-- `REPEAT_OP = 1` (source line 16). -/
def REPEAT_OP : Nat := 1

/-- `PIXEL_OP = 2` (source line 17). -/
def PIXEL_OP : Nat := 2

/-- The tree data model: `Pixel(value)` leaves and `Repeat(count, contents)`
nodes (classes `Pixel` and `Repeat` of the source).  The constructors carry
unconstrained `Nat`s; the range asserts of the source are modelled in the
operations that perform them. -/
inductive Node where
  | Pixel (value : Nat)
  | Repeat (count : Nat) (contents : List Node)

/-- `Repeat.__new__` (source lines 102–105): builds the namedtuple from a
`(count, contents)` pair without validating either field.  The `Except`
result records the Python exception behaviour of the constructor: for a
`(count, contents)` argument pair it never raises, whatever the values. -/
def Repeat.construct (count : Nat) (contents : List Node) : Except String Node :=
  Except.ok (Node.Repeat count contents)

mutual

/-- `Pixel.gen` (line 50) returns `[int(self)]`; `Repeat.gen`
(lines 107–111) concatenates the children's `gen()` results into one list
and then repeats that whole list `count` times (Python list repetition
`int(self.count) * contents`). -/
def Node.gen : Node → List Nat
  | .Pixel v => [v]
  | .Repeat count contents => (List.replicate count (Node.genList contents)).flatten

/-- The loop `for i in self.contents: contents += i.gen()` of `Repeat.gen`. -/
def Node.genList : List Node → List Nat
  | [] => []
  | c :: cs => Node.gen c ++ Node.genList cs

end

mutual

/-- `Pixel.encode` (line 67): `struct.pack("<BBBB", PIXEL_OP, self, self, self)`;
`Repeat.encode` (lines 116–129): `struct.pack("<BBH", REPEAT_OP,
len(self.contents), self.count)` followed by each child's encoding in order.
`struct.pack` raises `struct.error` when a `B` field exceeds 255 or an `H`
field exceeds 65535; a raised error is modelled as `none`. -/
def Node.encode : Node → Option (List Nat)
  | .Pixel v =>
    if v ≤ 255 then some [PIXEL_OP, v, v, v] else none
  | .Repeat count contents =>
    if contents.length ≤ 255 ∧ count ≤ 65535 then
      match Node.encodeList contents with
      | some body =>
        some (REPEAT_OP :: contents.length :: count % 256 :: count / 256 :: body)
      | none => none
    else none

/-- The loop `for i in self.contents: data.append(i.encode())` of
`Repeat.encode`, joined by `"".join(data)`. -/
def Node.encodeList : List Node → Option (List Nat)
  | [] => some []
  | c :: cs =>
    match Node.encode c, Node.encodeList cs with
    | some b, some bs => some (b ++ bs)
    | _, _ => none

end

mutual

/-- The data-model invariants of the spec (§3): every `Pixel` value lies in
`[0,256)`, every `Repeat` count in `[0,65535]`, and every children list has
length at most 255, recursively. -/
def Node.valid : Node → Bool
  | .Pixel v => decide (v < 256)
  | .Repeat count contents =>
    decide (count ≤ 65535) && decide (contents.length ≤ 255) && Node.validList contents

/-- `Node.valid` over a children list. -/
def Node.validList : List Node → Bool
  | [] => true
  | c :: cs => Node.valid c && Node.validList cs

end

mutual

/-- Total companion of `Node.encode`: the byte list the encoder produces on
trees whose fields are in range (see `encode_eq_encBytes`). -/
def Node.encBytes : Node → List Nat
  | .Pixel v => [PIXEL_OP, v, v, v]
  | .Repeat count contents =>
    REPEAT_OP :: contents.length :: count % 256 :: count / 256 :: Node.encBytesList contents

/-- `Node.encBytes` over a children list, concatenated. -/
def Node.encBytesList : List Node → List Nat
  | [] => []
  | c :: cs => Node.encBytes c ++ Node.encBytesList cs

end

mutual

/-- Number of nodes of a tree (used only to size the decoder's fuel). -/
def Node.size : Node → Nat
  | .Pixel _ => 1
  | .Repeat _ contents => 1 + Node.sizeList contents

/-- Total number of nodes of a list of trees. -/
def Node.sizeList : List Node → Nat
  | [] => 0
  | c :: cs => Node.size c + Node.sizeList cs

end

/-- Fuelled decoder: `decodeN gas k data` decodes `k` consecutive nodes from
the front of `data`, exactly as `DecodeBytes` (source lines 132–159) is
invoked `k` times in sequence.  Each node consumes a 4-byte header
`b0 :: b1 :: b2 :: b3`:

* fewer than 4 bytes left — the `assert len(op) == 4` fails (`none`);
* `b0 = PIXEL_OP` — `assert r == g == b` (the grayscale check), then
  `Pixel(r)` asserts `r < 256`;
* `b0 = REPEAT_OP` — `b1` children are decoded from the rest of the buffer
  and the node is `Repeat(b2 + 256 * b3, children)` (`struct.unpack("<BH")`
  reads the count little-endian);
* any other op code — the final `assert False` fails (`none`).

The fuel only bounds the recursion depth; `DecodeBytes` supplies more fuel
than any run of the Python decoder can use. -/
def decodeN : Nat → Nat → List Nat → Option (List Node × List Nat)
  | 0, _, _ => none
  | _ + 1, 0, data => some ([], data)
  | gas + 1, k + 1, data =>
    match data with
    | b0 :: b1 :: b2 :: b3 :: rest =>
      if b0 = PIXEL_OP then
        if b1 = b2 ∧ b2 = b3 then
          if b1 < 256 then
            match decodeN gas k rest with
            | some (ns, rem) => some (Node.Pixel b1 :: ns, rem)
            | none => none
          else none
        else none
      else if b0 = REPEAT_OP then
        match decodeN gas b1 rest with
        | some (cs, rem) =>
          match decodeN gas k rem with
          | some (ns, rem2) => some (Node.Repeat (b2 + 256 * b3) cs :: ns, rem2)
          | none => none
        | none => none
      else none
    | _ => none

/-- `DecodeBytes` (source lines 132–159): decode one node from the front of
the buffer and return it with the unconsumed remainder; any failing
`assert` on the way is `none`. -/
def DecodeBytes (data : List Nat) : Option (Node × List Nat) :=
  match decodeN (data.length + 1) 1 data with
  | some ([n], rest) => some (n, rest)
  | _ => none

/-- The Python values `TemplateEvaluate` (source lines 166–200) walks over:
plain integers (a `Pixel` is an `int` subclass, and Python compares them
equal to plain integers, so both are `int`), `Repeat` namedtuples whose two
fields may hold anything, plain lists, and callables (placeholders). -/
inductive PyVal where
  | int (n : Int)
  | Repeat (count : PyVal) (contents : PyVal)
  | list (elems : List PyVal)
  | func (f : Int → PyVal)

mutual

/-- `TemplateEvaluate(o, t)` (source lines 166–200), by cases on `o`:

* a callable is applied to `t` and its result returned as is;
* an `int` (or `Pixel`) is not callable and not iterable, so the `for`
  loop raises `TypeError` at once and the `except` returns `o` unchanged;
* a `Repeat` namedtuple iterates as its two fields, so
  `args = [TemplateEvaluate(count, t), TemplateEvaluate(contents, t)]`,
  `len(args) == 2`, and `o.__class__(args)` rebuilds
  `Repeat(args[0], args[1])`;
* a list evaluates its elements into `args`; with `len(args) == 1` the
  source runs `o.__class__(*args)`, i.e. `list(args[0])`: iterating a
  `Repeat` yields its two fields, iterating a list copies it, and a
  non-iterable (`int` or callable) raises `TypeError`, caught by the
  `except`, which returns the original `o`; otherwise `list(args)` is
  `args` itself. -/
def TemplateEvaluate : PyVal → Int → PyVal
  | .func f, t => f t
  | .int n, _ => .int n
  | .Repeat count contents, t =>
    .Repeat (TemplateEvaluate count t) (TemplateEvaluate contents t)
  | .list elems, t =>
    match elems, TemplateEvaluateList elems t with
    | [e], [e'] =>
      match e' with
      | .Repeat count contents => .list [count, contents]
      | .list xs => .list xs
      | .int _ => .list [e]
      | .func _ => .list [e]
    | _, args => .list args

/-- The loop `for arg in o: args.append(TemplateEvaluate(arg, t))`. -/
def TemplateEvaluateList : List PyVal → Int → List PyVal
  | [], _ => []
  | e :: es, t => TemplateEvaluate e t :: TemplateEvaluateList es t

end

mutual

/-- A concrete tree as the Python value it is: a `Pixel` is its integer
value, a `Repeat` is the namedtuple of its count and its children list. -/
def Node.toPy : Node → PyVal
  | .Pixel v => .int v
  | .Repeat count contents => .Repeat (.int count) (.list (Node.toPyList contents))

/-- `Node.toPy` over a children list. -/
def Node.toPyList : List Node → List PyVal
  | [] => []
  | c :: cs => Node.toPy c :: Node.toPyList cs

end

/-! ## Flattening -/

theorem genList_eq_flatten_map (cs : List Node) :
    Node.genList cs = (cs.map Node.gen).flatten := by
  induction cs with
  | nil => rfl
  | cons c cs ih => simp [Node.genList, ih]

/-- **C2**: for every `Repeat(count, children)` node, `gen` returns the
concatenation of the children's flattenings, in children order, tiled
`count` times end-to-end; its length is `count` times the sum of the
children's flattened lengths, and for `count = 0` the result is the empty
sequence regardless of the children. -/
theorem repeat_gen_tiling (count : Nat) (cs : List Node) :
    (Node.Repeat count cs).gen = (List.replicate count ((cs.map Node.gen).flatten)).flatten ∧
    (Node.Repeat count cs).gen.length = count * (cs.map fun c => c.gen.length).sum ∧
    (Node.Repeat 0 cs).gen = [] := by
  refine ⟨by simp [Node.gen, genList_eq_flatten_map], ?_, by simp [Node.gen]⟩
  simp [Node.gen, genList_eq_flatten_map, List.length_flatten, List.map_replicate,
    List.sum_replicate, smul_eq_mul, List.map_map, Function.comp_def]

/-! ## Encoding -/

mutual

theorem encode_eq_encBytes : ∀ n : Node, n.valid = true → n.encode = some n.encBytes
  | .Pixel v, h => by
    have hv : v < 256 := by simpa [Node.valid] using h
    simp [Node.encode, Node.encBytes, Nat.lt_succ_iff.mp hv]
  | .Repeat count cs, h => by
    have h' : count ≤ 65535 ∧ cs.length ≤ 255 ∧ Node.validList cs = true := by
      simpa [Node.valid, Bool.and_assoc] using h
    have hcs := encodeList_eq_encBytesList cs h'.2.2
    simp [Node.encode, Node.encBytes, h'.1, h'.2.1, hcs]

theorem encodeList_eq_encBytesList :
    ∀ cs : List Node, Node.validList cs = true →
      Node.encodeList cs = some (Node.encBytesList cs)
  | [], _ => rfl
  | c :: cs, h => by
    have h' : Node.valid c = true ∧ Node.validList cs = true := by
      simpa [Node.validList] using h
    have hc := encode_eq_encBytes c h'.1
    have hcs := encodeList_eq_encBytesList cs h'.2
    simp [Node.encodeList, Node.encBytesList, hc, hcs]

end

theorem encodeList_eq_of_children (cs : List Node) (body : List (List Nat))
    (h : cs.map Node.encode = body.map some) :
    Node.encodeList cs = some body.flatten := by
  induction cs generalizing body with
  | nil =>
    cases body with
    | nil => rfl
    | cons b bs => simp at h
  | cons c cs ih =>
    cases body with
    | nil => simp at h
    | cons b bs =>
      simp only [List.map_cons, List.cons.injEq] at h
      simp [Node.encodeList, h.1, ih bs h.2]

/-- **C7**: for every value `v` in `[0,256)`, `Pixel(v).encode()` returns
exactly the four bytes `[2, v, v, v]`. -/
theorem pixel_encode_layout (v : Nat) (h : v < 256) :
    (Node.Pixel v).encode = some [PIXEL_OP, v, v, v] := by
  simp [Node.encode, Nat.lt_succ_iff.mp h]

/-- Witness for `pixel_encode_layout` at `v = 16`. -/
theorem pixel_encode_layout_witness :
    (16 : Nat) < 256 ∧ (Node.Pixel 16).encode = some [PIXEL_OP, 16, 16, 16] :=
  ⟨by decide, pixel_encode_layout 16 (by decide)⟩

/-- **C6**: for every `Repeat(count, children)` with `count ≤ 65535` and at
most 255 children whose encodings all succeed, `encode` returns exactly the
4-byte header `[1, length(children), count % 256, count / 256]` (count
little-endian) followed by the children's encodings concatenated in order. -/
theorem repeat_encode_layout (count : Nat) (cs : List Node) (body : List (List Nat))
    (hc : count ≤ 65535) (hl : cs.length ≤ 255)
    (hbody : cs.map Node.encode = body.map some) :
    (Node.Repeat count cs).encode =
      some ([REPEAT_OP, cs.length, count % 256, count / 256] ++ body.flatten) := by
  simp [Node.encode, hc, hl, encodeList_eq_of_children cs body hbody]

/-- Witness for `repeat_encode_layout` at the source's own doctest
`Repeat(3000, [Repeat(2000, [Pixel(1)]), Pixel(12), Pixel(23)])`. -/
theorem repeat_encode_layout_witness :
    ((3000 : Nat) ≤ 65535 ∧
      ([Node.Repeat 2000 [Node.Pixel 1], Node.Pixel 12, Node.Pixel 23].map Node.encode
        = [[1, 1, 208, 7, 2, 1, 1, 1], [2, 12, 12, 12], [2, 23, 23, 23]].map some)) ∧
    (Node.Repeat 3000 [Node.Repeat 2000 [Node.Pixel 1], Node.Pixel 12, Node.Pixel 23]).encode
      = some ([REPEAT_OP, 3, 3000 % 256, 3000 / 256] ++
          [[1, 1, 208, 7, 2, 1, 1, 1], [2, 12, 12, 12], [2, 23, 23, 23]].flatten) :=
  ⟨⟨by decide, by rfl⟩,
    repeat_encode_layout 3000 _ _ (by decide) (by decide) (by rfl)⟩

/-- **C4, counterexample**: the claim says a `Repeat` constructed with
`count > 65535` is rejected; `Repeat.__new__` performs no validation, so the
construction succeeds. -/
theorem repeat_construct_unchecked :
    Repeat.construct 70000 [] = Except.ok (Node.Repeat 70000 []) := rfl

/-- **C4, amended**: constructing a `Repeat` with `count > 65535` or more
than 255 children succeeds without any validation; encoding such a node is
rejected (the fixed-width pack fails) rather than silently truncated or
wrapped. -/
theorem repeat_bounds_encode_rejected (count : Nat) (cs : List Node)
    (h : 65535 < count ∨ 255 < cs.length) :
    Repeat.construct count cs = Except.ok (Node.Repeat count cs) ∧
    (Node.Repeat count cs).encode = none := by
  refine ⟨rfl, ?_⟩
  have : ¬ (cs.length ≤ 255 ∧ count ≤ 65535) := by omega
  simp [Node.encode, this]

/-- Witness for `repeat_bounds_encode_rejected` at `count = 70000`. -/
theorem repeat_bounds_encode_rejected_witness :
    ((65535 : Nat) < 70000 ∨ 255 < List.length ([] : List Node)) ∧
    (Repeat.construct 70000 [] = Except.ok (Node.Repeat 70000 []) ∧
      (Node.Repeat 70000 []).encode = none) :=
  ⟨Or.inl (by decide), repeat_bounds_encode_rejected 70000 [] (Or.inl (by decide))⟩

/-! ## Decoding -/

theorem decodeN_length (gas k : Nat) (data : List Nat) :
    ∀ ns rem, decodeN gas k data = some (ns, rem) → ns.length = k := by
  induction gas, k, data using decodeN.induct <;>
    intro ns rem h <;>
    simp_all [decodeN] <;>
    (try obtain ⟨h1, h2⟩ := h) <;>
    (try subst h1) <;>
    (try simp_all) <;>
    omega

theorem decodeN_consumes (gas k : Nat) (data : List Nat) :
    ∀ ns rem, decodeN gas k data = some (ns, rem) → rem.length + 4 * k ≤ data.length := by
  induction gas, k, data using decodeN.induct <;>
    intro ns rem h <;>
    simp_all [decodeN] <;>
    omega

theorem decodeN_valid (gas k : Nat) (data : List Nat) :
    ∀ ns rem, decodeN gas k data = some (ns, rem) → (∀ b ∈ data, b < 256) →
      Node.validList ns = true ∧ ∀ b ∈ rem, b < 256 := by
  induction gas, k, data using decodeN.induct with
  | case1 k data => intro ns rem h _; simp [decodeN] at h
  | case2 gas data =>
    intro ns rem h hb
    simp only [decodeN, Option.some.injEq, Prod.mk.injEq] at h
    obtain ⟨rfl, rfl⟩ := h
    exact ⟨rfl, hb⟩
  | case3 gas k b1 b2 b3 rest hgray hlt ns0 rem0 hrec ih =>
    intro ns rem h hb
    simp only [decodeN, if_pos rfl, if_pos hgray, if_pos hlt, hrec,
      Option.some.injEq, Prod.mk.injEq] at h
    obtain ⟨rfl, rfl⟩ := h
    have hrest : ∀ b ∈ rest, b < 256 := fun b hbm => hb b (by simp [hbm])
    obtain ⟨hv, hr⟩ := ih ns0 rem0 hrec hrest
    refine ⟨?_, hr⟩
    simp [Node.validList, Node.valid, hlt, hv]
  | case4 gas k b1 b2 b3 rest hgray hlt hrec ih =>
    intro ns rem h hb
    simp [decodeN, if_pos rfl, if_pos hgray, if_pos hlt, hrec] at h
  | case5 gas k b1 b2 b3 rest hgray hlt =>
    intro ns rem h hb
    simp [decodeN, if_pos rfl, if_pos hgray, hlt] at h
  | case6 gas k b1 b2 b3 rest hgray =>
    intro ns rem h hb
    simp [decodeN, if_pos rfl, hgray] at h
  | case7 gas k b1 b2 b3 rest cs rem1 hrec1 ns0 rem0 hrec2 hne ih1 ih2 =>
    intro ns rem h hb
    simp only [decodeN, if_neg hne, if_pos rfl, hrec1, hrec2,
      Option.some.injEq, Prod.mk.injEq] at h
    obtain ⟨rfl, rfl⟩ := h
    have hrest : ∀ b ∈ rest, b < 256 := fun b hbm => hb b (by simp [hbm])
    obtain ⟨hv1, hr1⟩ := ih1 cs rem1 hrec1 hrest
    obtain ⟨hv2, hr2⟩ := ih2 ns0 rem0 hrec2 hr1
    refine ⟨?_, hr2⟩
    have hb1 : b1 < 256 := hb b1 (by simp)
    have hb2 : b2 < 256 := hb b2 (by simp)
    have hb3 : b3 < 256 := hb b3 (by simp)
    have hlen : cs.length = b1 := decodeN_length gas b1 rest cs rem1 hrec1
    have hcount : b2 + 256 * b3 ≤ 65535 := by omega
    simp [Node.validList, Node.valid, hv1, hv2, hcount, hlen]
    omega
  | case8 gas k b1 b2 b3 rest cs rem1 hrec1 hrec2 hne ih1 ih2 =>
    intro ns rem h hb
    simp [decodeN, if_neg hne, if_pos rfl, hrec1, hrec2] at h
  | case9 gas k b1 b2 b3 rest hrec1 hne ih1 =>
    intro ns rem h hb
    simp [decodeN, if_neg hne, if_pos rfl, hrec1] at h
  | case10 gas k b0 b1 b2 b3 rest hne1 hne2 =>
    intro ns rem h hb
    simp [decodeN, hne1, hne2] at h
  | case11 gas k data hshape =>
    intro ns rem h hb
    match data, hshape with
    | [], _ => simp [decodeN] at h
    | [a], _ => simp [decodeN] at h
    | [a, b], _ => simp [decodeN] at h
    | [a, b, c], _ => simp [decodeN] at h
    | a :: b :: c :: d :: rest, hshape => exact absurd rfl (hshape a b c d rest)

mutual

theorem four_mul_size_le_encBytes : ∀ n : Node, 4 * n.size ≤ n.encBytes.length
  | .Pixel v => by simp [Node.size, Node.encBytes]
  | .Repeat count cs => by
    have h := four_mul_sizeList_le_encBytesList cs
    simp only [Node.size, Node.encBytes, List.length_cons]
    omega

theorem four_mul_sizeList_le_encBytesList :
    ∀ cs : List Node, 4 * Node.sizeList cs ≤ (Node.encBytesList cs).length
  | [] => by simp [Node.sizeList, Node.encBytesList]
  | c :: cs => by
    have h1 := four_mul_size_le_encBytes c
    have h2 := four_mul_sizeList_le_encBytesList cs
    simp only [Node.sizeList, Node.encBytesList, List.length_append]
    omega

end

theorem decodeN_encBytesList (gas : Nat) :
    ∀ cs : List Node, Node.validList cs = true → Node.sizeList cs < gas →
      ∀ extra, decodeN gas cs.length (Node.encBytesList cs ++ extra) = some (cs, extra) := by
  induction gas with
  | zero => intro cs _ hs _; omega
  | succ gas ih =>
    intro cs hv hs extra
    match cs with
    | [] => rfl
    | Node.Pixel v :: cs =>
      have h' : v < 256 ∧ Node.validList cs = true := by
        simpa [Node.validList, Node.valid] using hv
      have hs' : Node.sizeList cs < gas := by
        have : Node.sizeList (Node.Pixel v :: cs) = 1 + Node.sizeList cs := by
          simp [Node.sizeList, Node.size]
        omega
      have hrec := ih cs h'.2 hs' extra
      show decodeN (gas + 1) (cs.length + 1)
          (PIXEL_OP :: v :: v :: v :: (Node.encBytesList cs ++ extra)) = _
      simp [decodeN, h'.1, hrec]
    | Node.Repeat count ccs :: cs =>
      have h' : count ≤ 65535 ∧ ccs.length ≤ 255 ∧ Node.validList ccs = true ∧
          Node.validList cs = true := by
        simpa [Node.validList, Node.valid, Bool.and_assoc, and_assoc] using hv
      have hsz : Node.sizeList (Node.Repeat count ccs :: cs)
          = 1 + Node.sizeList ccs + Node.sizeList cs := by
        simp [Node.sizeList, Node.size]
      have hs1 : Node.sizeList ccs < gas := by omega
      have hs2 : Node.sizeList cs < gas := by omega
      have hrec1 := ih ccs h'.2.2.1 hs1 (Node.encBytesList cs ++ extra)
      have hrec2 := ih cs h'.2.2.2 hs2 extra
      have hbytes : Node.encBytesList (Node.Repeat count ccs :: cs) ++ extra
          = REPEAT_OP :: ccs.length :: count % 256 :: count / 256 ::
            (Node.encBytesList ccs ++ (Node.encBytesList cs ++ extra)) := by
        simp [Node.encBytesList, Node.encBytes]
      rw [List.length_cons, hbytes]
      simp [decodeN, REPEAT_OP, PIXEL_OP, hrec1, hrec2, Nat.mod_add_div]

/-- **C1**: for every valid tree `n` (every `Pixel` value below 256, every
`Repeat` count at most 65535, every children list of length at most 255),
`DecodeBytes` applied to the encoding of `n` returns `n` together with the
empty remaining buffer. -/
theorem decode_encode_roundtrip (n : Node) (h : n.valid = true) :
    ∃ bs, n.encode = some bs ∧ DecodeBytes bs = some (n, []) := by
  refine ⟨n.encBytes, encode_eq_encBytes n h, ?_⟩
  have hv : Node.validList [n] = true := by simp [Node.validList, h]
  have hsz : Node.sizeList [n] < n.encBytes.length + 1 := by
    have h4 := four_mul_size_le_encBytes n
    simp only [Node.sizeList]
    omega
  have hdec := decodeN_encBytesList (n.encBytes.length + 1) [n] hv hsz []
  have hbytes : Node.encBytesList [n] ++ [] = n.encBytes := by
    simp [Node.encBytesList]
  rw [hbytes] at hdec
  simp only [List.length_singleton] at hdec
  simp [DecodeBytes, hdec]

/-- Witness for `decode_encode_roundtrip` at the source's doctest tree
`Repeat(2, [Pixel(0)])`. -/
theorem decode_encode_roundtrip_witness :
    (Node.Repeat 2 [Node.Pixel 0]).valid = true ∧
    ∃ bs, (Node.Repeat 2 [Node.Pixel 0]).encode = some bs ∧
      DecodeBytes bs = some (Node.Repeat 2 [Node.Pixel 0], []) :=
  ⟨by rfl, decode_encode_roundtrip (Node.Repeat 2 [Node.Pixel 0]) (by rfl)⟩

theorem decodeBytes_short (data : List Nat) (h : data.length < 4) :
    DecodeBytes data = none := by
  match data with
  | [] => rfl
  | [a] => rfl
  | [a, b] => rfl
  | [a, b, c] => rfl
  | a :: b :: c :: d :: rest => exact absurd h (by simp)

theorem decodeN_one_repeat_short (gas k c1 c2 : Nat) (rest : List Nat)
    (h : rest.length < 4 * k) :
    decodeN gas 1 (REPEAT_OP :: k :: c1 :: c2 :: rest) = none := by
  match gas with
  | 0 => rfl
  | gas + 1 =>
    cases hrec : decodeN gas k rest with
    | none => simp [decodeN, REPEAT_OP, PIXEL_OP, hrec]
    | some p =>
      obtain ⟨cs, rem⟩ := p
      have := decodeN_consumes gas k rest cs rem hrec
      omega

/-- **C8**: decoding any buffer shorter than 4 bytes fails, and decoding a
buffer whose `Repeat` header declares more children than the remaining
bytes can supply (each child consumes at least 4 bytes) fails; in neither
case is a tree returned. -/
theorem decode_truncated_fails (data : List Nat) :
    (data.length < 4 → DecodeBytes data = none) ∧
    (∀ k c1 c2 rest, data = REPEAT_OP :: k :: c1 :: c2 :: rest →
      rest.length < 4 * k → DecodeBytes data = none) := by
  refine ⟨decodeBytes_short data, ?_⟩
  intro k c1 c2 rest hdata hlen
  subst hdata
  simp [DecodeBytes, decodeN_one_repeat_short _ k c1 c2 rest hlen]

/-- Witness for `decode_truncated_fails`: the 1-byte buffer `[5]` and the
buffer `[1, 1, 0, 0]` whose header declares one child but carries no body. -/
theorem decode_truncated_fails_witness :
    DecodeBytes [5] = none ∧ DecodeBytes [1, 1, 0, 0] = none :=
  ⟨(decode_truncated_fails [5]).1 (by decide),
    (decode_truncated_fails [1, 1, 0, 0]).2 1 0 0 [] rfl (by decide)⟩

/-- **C9**: decoding a buffer whose first byte is the `Pixel` op code (2)
and whose three payload bytes are not all equal fails. -/
theorem decode_grayscale_violation_fails (b1 b2 b3 : Nat) (rest : List Nat)
    (h : ¬ (b1 = b2 ∧ b2 = b3)) :
    DecodeBytes (PIXEL_OP :: b1 :: b2 :: b3 :: rest) = none := by
  have hdec : decodeN (rest.length + 4 + 1) 1 (PIXEL_OP :: b1 :: b2 :: b3 :: rest) = none := by
    simp [decodeN, h]
  simp [DecodeBytes, hdec]

/-- Witness for `decode_grayscale_violation_fails` at payload `0, 1, 0`. -/
theorem decode_grayscale_violation_fails_witness :
    DecodeBytes [PIXEL_OP, 0, 1, 0] = none :=
  decode_grayscale_violation_fails 0 1 0 [] (by decide)

/-- **C10**: whenever `DecodeBytes` succeeds on a byte buffer, the returned
node satisfies the data-model invariants throughout: every `Pixel` value is
below 256, every `Repeat` count at most 65535, and every children list has
length at most 255. -/
theorem decode_yields_valid (data : List Nat) (hb : ∀ b ∈ data, b < 256)
    (n : Node) (rest : List Nat) (h : DecodeBytes data = some (n, rest)) :
    n.valid = true := by
  unfold DecodeBytes at h
  cases heq : decodeN (data.length + 1) 1 data with
  | none => rw [heq] at h; exact Option.noConfusion h
  | some p =>
    obtain ⟨ns, rest'⟩ := p
    rw [heq] at h
    obtain ⟨hv, -⟩ := decodeN_valid (data.length + 1) 1 data ns rest' heq hb
    cases ns with
    | nil => exact Option.noConfusion h
    | cons n0 tail =>
      cases tail with
      | nil =>
        cases h
        simpa [Node.validList] using hv
      | cons n1 tail2 => exact Option.noConfusion h

/-- Witness for `decode_yields_valid` at the buffer encoding
`Repeat(2, [Pixel(0)])`. -/
theorem decode_yields_valid_witness :
    (∀ b ∈ [1, 1, 2, 0, 2, 0, 0, 0], b < 256) ∧
    DecodeBytes [1, 1, 2, 0, 2, 0, 0, 0] = some (Node.Repeat 2 [Node.Pixel 0], []) ∧
    (Node.Repeat 2 [Node.Pixel 0]).valid = true :=
  ⟨by decide, by rfl,
    decode_yields_valid [1, 1, 2, 0, 2, 0, 0, 0] (by decide) _ [] (by rfl)⟩

/-! ## Template evaluation -/

/-- **C3, code bug**: on the `Repeat`-shaped template
`Repeat(5, [lambda t: t])` with context `7`, `TemplateEvaluate` does not
evaluate the single child: evaluating the one-element children list
computes `args = [7]`, then `list(*args)` raises `TypeError` (an `int` is
not iterable) and the `except` hands back the original list with the
placeholder still inside, instead of the list of evaluated children
`[7]` the claim requires. -/
theorem templateEvaluate_placeholder_child_unevaluated :
    TemplateEvaluate (PyVal.Repeat (.int 5) (.list [.func fun t => .int t])) 7
      = PyVal.Repeat (.int 5) (.list [.func fun t => .int t]) ∧
    TemplateEvaluate (PyVal.Repeat (.int 5) (.list [.func fun t => .int t])) 7
      ≠ PyVal.Repeat (.int 5) (.list [.int 7]) := by
  refine ⟨rfl, ?_⟩
  show PyVal.Repeat (.int 5) (.list [.func fun t => .int t])
      ≠ PyVal.Repeat (.int 5) (.list [.int 7])
  simp

/-- **C5, code bug**: the fully concrete template
`Repeat(3, [Repeat(2, [Pixel(1)])])` is not mapped to itself: evaluating
its one-element children list computes `args = [Repeat(2, [Pixel(1)])]`,
and `list(*args)` then iterates the namedtuple into its two fields, so the
children list comes back as `[2, [Pixel(1)]]` instead of the original
single `Repeat` child. -/
theorem templateEvaluate_not_identity_on_singleton_repeat :
    TemplateEvaluate ((Node.Repeat 3 [Node.Repeat 2 [Node.Pixel 1]]).toPy) 0
      = PyVal.Repeat (.int 3) (.list [.int 2, .list [.int 1]]) ∧
    TemplateEvaluate ((Node.Repeat 3 [Node.Repeat 2 [Node.Pixel 1]]).toPy) 0
      ≠ (Node.Repeat 3 [Node.Repeat 2 [Node.Pixel 1]]).toPy := by
  refine ⟨rfl, ?_⟩
  show PyVal.Repeat (.int 3) (.list [.int 2, .list [.int 1]])
      ≠ PyVal.Repeat (.int 3) (.list [.Repeat (.int 2) (.list [.int 1])])
  simp

end RLE
